import Mathlib

/-!
Shallow embedding of the `rust-statusline` repository (src/git.rs, src/status.rs).

Rust strings are modelled as `List Char`; Rust byte-indexed slicing (`&s[a..b]`)
is modelled by `byteSplitAt` / `byteSlice`, which walk UTF-8 byte offsets and
return `none` exactly where the Rust slice would panic (offset out of range or
not on a character boundary).  A Rust panic anywhere (slice panic, `.unwrap()`
on a failed integer parse, `usize` subtraction underflow in a debug build) is
modelled by an `Option`-valued function returning `none`.  `usize` values are
modelled as `Nat`; `usize::from_str` is modelled by `parse_usize`, which
rejects values `≥ 2^64` just as the 64-bit Rust parse does.
-/

set_option maxRecDepth 40000

namespace RustStatusline

/-- Char-list view of a Lean string literal; used to write Rust string
literals in the embedding. -/
def str (s : String) : List Char := s.data

/-- Split a char list at UTF-8 byte offset `k`: `some (pre, post)` when `k`
is a character boundary not past the end, `none` otherwise (a Rust byte
slice at such an offset panics). -/
def byteSplitAt : Nat → List Char → Option (List Char × List Char)
  | 0, s => some ([], s)
  | _ + 1, [] => none
  | k + 1, c :: cs =>
    if c.utf8Size ≤ k + 1 then
      (byteSplitAt (k + 1 - c.utf8Size) cs).map fun p => (c :: p.1, p.2)
    else none

/-- Rust `&s[k..]`. -/
def byteDrop (k : Nat) (s : List Char) : Option (List Char) :=
  (byteSplitAt k s).map fun p => p.2

/-- Rust `&s[a..b]` for `a ≤ b`. -/
def byteSlice (a b : Nat) (s : List Char) : Option (List Char) :=
  (byteSplitAt a s).bind fun p => (byteSplitAt (b - a) p.2).map fun q => q.1

/-- UTF-8 byte length of a char list (Rust `str::len`). -/
def utf8Len (s : List Char) : Nat := (s.map Char.utf8Size).sum

/-- Rust `str::split` with a one-character separator pattern: always yields
at least one (possibly empty) field. -/
def splitOnC (sep : Char) : List Char → List (List Char)
  | [] => [[]]
  | c :: cs =>
    if c = sep then [] :: splitOnC sep cs
    else
      match splitOnC sep cs with
      | [] => [[c]]
      | g :: gs => (c :: g) :: gs

/-- Value of a decimal digit string (most significant digit first). -/
def digitsVal (s : List Char) : Nat :=
  s.foldl (fun n c => 10 * n + (c.toNat - 48)) 0

/-- The optional leading `+` sign accepted by Rust's unsigned integer
parser. -/
def stripPlus (s : List Char) : List Char :=
  match s with
  | '+' :: rest => rest
  | _ => s

/-- Rust `usize::from_str` (64-bit): an optional leading `+`, then one or
more ASCII digits, value below `2^64`; `none` models `Err`. -/
def parse_usize (s : List Char) : Option Nat :=
  if stripPlus s ≠ [] ∧ (stripPlus s).all Char.isDigit ∧ digitsVal (stripPlus s) < 2 ^ 64 then
    some (digitsVal (stripPlus s))
  else none

/-- Decimal rendering of a `usize` by Rust's `Display` (`write!("{}", n)`). -/
def natDigits (n : Nat) : List Char :=
  if _ : n < 10 then [Char.ofNat (48 + n)]
  else natDigits (n / 10) ++ [Char.ofNat (48 + n % 10)]
termination_by n
decreasing_by exact Nat.div_lt_self (by omega) (by omega)

/-- git.rs `struct AheadBehind`. -/
structure AheadBehind where
  ahead : Nat
  behind : Nat
  deriving DecidableEq

/-- git.rs `struct Status`. -/
structure Status where
  unmerged : Nat
  staged : Nat
  unstaged : Nat
  untracked : Nat
  deriving DecidableEq

/-- git.rs `struct Repo`. -/
structure Repo where
  branch : List Char
  ab : Option AheadBehind
  status : Status
  stashes : Nat
  deriving DecidableEq

/-- git.rs `Status::zero`. -/
def Status.zero : Status := ⟨0, 0, 0, 0⟩

/-- git.rs `Status::has_changes` (disjunct order as in the source). -/
def Status.has_changes (st : Status) : Bool :=
  decide (st.unstaged > 0) || decide (st.untracked > 0) ||
    decide (st.staged > 0) || decide (st.unmerged > 0)

/-- git.rs `impl fmt::Display for AheadBehind`. -/
def AheadBehind.fmt (ab : AheadBehind) : List Char :=
  if ¬(ab.ahead > 0 ∨ ab.behind > 0) then []
  else
    (if ab.ahead > 0 then str "\x1b[32m↑" ++ natDigits ab.ahead else []) ++
    (if ab.behind > 0 then str "\x1b[31m↓" ++ natDigits ab.behind else []) ++
    str "\x1b[m"

/-- git.rs `impl fmt::Display for Status`. -/
def Status.fmt (st : Status) : List Char :=
  if ¬st.has_changes then []
  else
    (if st.unmerged > 0 then str "\x1b[91;1m" ++ natDigits st.unmerged else []) ++
    (if st.staged > 0 then str "\x1b[32m" ++ natDigits st.staged else []) ++
    (if st.unstaged > 0 then str "\x1b[31m" ++ natDigits st.unstaged else []) ++
    (if st.untracked > 0 then str "\x1b[90m" ++ natDigits st.untracked else []) ++
    str "\x1b[m"

/-- git.rs `const ICON`. -/
def ICON : List Char := str "\x1b[38;5;202m\x1b[m"

/-- git.rs `Repo::stat` (the `VCS::stat` implementation). -/
def Repo.stat (r : Repo) : List Char :=
  ICON ++ r.branch ++
    (match r.ab with
     | some ab => ab.fmt
     | none => str "\x1b[91;1m↯\x1b[m") ++
    (if r.status.has_changes then str "(" ++ r.status.fmt ++ str ")" else []) ++
    (if r.stashes > 0 then str "\x7b" ++ natDigits r.stashes ++ str "\x7d" else [])

/-- Header branch of git.rs `Repo::from_str`: processing of `line[2..]` for a
line whose first byte is `#`.  `none` models the `.unwrap()` panics on a
malformed `branch.ab` or `stash` integer and the slice panic of
`behind[1..]`. -/
def processHeader (r : Repo) (rest2 : List Char) : Option Repo :=
  match splitOnC ' ' rest2 with
  | [] => some r
  | key :: fields =>
    if key = str "branch.head" then
      match fields with
      | v :: _ => some { r with branch := r.branch ++ v }
      | [] => some r
    else if key = str "branch.ab" then
      match fields with
      | ahead :: behind :: _ =>
        match parse_usize ahead with
        | none => none
        | some a =>
          match byteDrop 1 behind with
          | none => none
          | some btail =>
            match parse_usize btail with
            | none => none
            | some b => some { r with ab := some ⟨a, b⟩ }
      | _ => some r
    else if key = str "stash" then
      match fields with
      | v :: _ =>
        match parse_usize v with
        | none => none
        | some n => some { r with stashes := n }
      | [] => some r
    else some r

/-- One iteration of the line loop of git.rs `Repo::from_str`: empty lines
are skipped; the match on `&line[0..1]` dispatches on the first byte; `none`
models the byte-slice panics (`&line[0..1]` on a multi-byte first character,
`line[2..]` / `&line[2..3]` / `&line[3..4]` past the end or off a character
boundary) and the header panics of `processHeader`. -/
def processLine (r : Repo) (line : List Char) : Option Repo :=
  if line = [] then some r
  else
    match byteSlice 0 1 line with
    | none => none
    | some tag =>
      if tag = str "#" then
        match byteDrop 2 line with
        | none => none
        | some rest2 => processHeader r rest2
      else if tag = str "u" then
        some { r with status := { r.status with unmerged := r.status.unmerged + 1 } }
      else if tag = str "1" ∨ tag = str "2" then
        match byteSlice 2 3 line with
        | none => none
        | some c1 =>
          let r1 := if c1 ≠ str "." then
            { r with status := { r.status with staged := r.status.staged + 1 } } else r
          match byteSlice 3 4 line with
          | none => none
          | some c2 =>
            some (if c2 ≠ str "." then
              { r1 with status := { r1.status with unstaged := r1.status.unstaged + 1 } } else r1)
      else if tag = str "?" then
        some { r with status := { r.status with untracked := r.status.untracked + 1 } }
      else some r

/-- git.rs `Repo::from_str`: fold `processLine` over the `"\n"`-split lines
starting from the all-empty accumulator; the Rust function always returns
`Ok`, so `none` here models only a panic. -/
def Repo.from_str (string : List Char) : Option Repo :=
  (splitOnC '\n' string).foldlM processLine ⟨[], none, ⟨0, 0, 0, 0⟩, 0⟩

/-- status.rs word-character class of the regex `\w` used by `minify_dir`
(alphanumeric or underscore; the source's regex crate class is Unicode-aware,
restricted here to the ASCII range all inputs of this development use). -/
def isWordChar (c : Char) : Bool := c.isAlphanum || c = '_'

/-- status.rs `minify_dir`: `Regex::new(r"(\W*\w)").find(name)` finds the
leftmost match, which (since `\W*` may be empty) starts at offset zero and is
the leading run of non-word characters plus the first word character; when
the segment has no word character there is no match and the segment is
returned unchanged. -/
def minify_dir (name : List Char) : List Char :=
  match name.dropWhile (fun c => !isWordChar c) with
  | c :: _ => name.takeWhile (fun c => !isWordChar c) ++ [c]
  | [] => name

/-- status.rs `minify_path`: splits on `/`, abbreviates every segment whose
index is below `dirs.len() - keep`, rejoins, and wraps the result in the
path color and reset escapes.  The `usize` subtraction `dirs.len() - keep`
underflows when `keep > dirs.len()`, which panics in a debug build; the
underflow is modelled by `none`. -/
def minify_path (path : List Char) (keep : Nat) : Option (List Char) :=
  let dirs := splitOnC '/' path
  if keep ≤ dirs.length then
    let limit := dirs.length - keep
    some (str "\x1b[94m" ++
      List.intercalate (str "/")
        (dirs.enum.map fun p => if p.1 < limit then minify_dir p.2 else p.2) ++
      str "\x1b[m")
  else none

/-- status.rs `apply_vcs`, with the `vcs.root_dir()` and `vcs.stat()` results
of the VCS gateway passed as the `root` and `stat` arguments.  The two Rust
slices `&path[0..root.len()]` and `&path[root.len()..]` both panic exactly
when `root.len()` exceeds the byte length of `path` or is not a character
boundary of it, modelled by the single `byteSplitAt`. -/
def apply_vcs (path : List Char) (root stat : List Char) : Option (List Char) :=
  match byteSplitAt (utf8Len root) path with
  | none => none
  | some (common, remainder) =>
    match minify_path common 1, minify_path remainder 1 with
    | some a, some b => some (a ++ stat ++ b)
    | _, _ => none

/-- status.rs `statusline`, with the outcome of
`env::current_dir().unwrap().to_str()` passed explicitly: `cwd = none`
models `env::current_dir()` returning `Err` (the `.unwrap()` panics,
modelled by `none`); `cwd = some none` models a non-UTF8 path whose
`to_str()` is `None` (the function returns `""`); `cwd = some (some path)`
is the ordinary case.  `root` and `stat` are the VCS gateway results as in
`apply_vcs`. -/
def statusline (cwd : Option (Option (List Char))) (root stat : List Char) :
    Option (List Char) :=
  match cwd with
  | none => none
  | some none => some []
  | some (some path) => apply_vcs path root stat

/-- Well-formedness of the `line[2..]` part of a `#` header line: the
integer fields of `branch.ab` and `stash` lines must parse (after the
`behind[1..]` slice succeeds); all other header keys are safe. -/
def headerOk (rest2 : List Char) : Bool :=
  match splitOnC ' ' rest2 with
  | [] => true
  | key :: fields =>
    if key = str "branch.ab" then
      match fields with
      | ahead :: behind :: _ =>
        (parse_usize ahead).isSome &&
          (match byteDrop 1 behind with
           | none => false
           | some btail => (parse_usize btail).isSome)
      | _ => true
    else if key = str "stash" then
      match fields with
      | v :: _ => (parse_usize v).isSome
      | [] => true
    else true

/-- The per-line well-formedness condition under which the line loop of
`Repo::from_str` does not panic: empty, or a one-byte first character and,
for `#` lines, a valid `[2..]` slice with `headerOk` fields, and for
`1`/`2` records valid one-byte slices at offsets 2 and 3; any other
one-byte tag is always safe (skipped or counted without further slicing). -/
def lineOk (line : List Char) : Bool :=
  if line = [] then true
  else
    match byteSlice 0 1 line with
    | none => false
    | some tag =>
      if tag = str "#" then
        match byteDrop 2 line with
        | none => false
        | some rest2 => headerOk rest2
      else if tag = str "1" ∨ tag = str "2" then
        (byteSlice 2 3 line).isSome && (byteSlice 3 4 line).isSome
      else true

/-- The canonical status fixture of the repository's
`test_repo_from_string` (and of spec section 8): a leading empty line,
three informational headers, `branch.ab +1 -10`, `stash 3`, four
`1`-records with codes `.M`/`.M`/`.M`/`.D`, one `2`-record with code `R.`,
one `u`-record, five `?`-records, and a trailing whitespace line. -/
def c1Fixture : List Char := str "
# branch.oid 51c9c58e2175b768137c1e38865f394c76a7d49d
# branch.head master
# branch.upstream origin/master
# branch.ab +1 -10
# stash 3
1 .M N... 100644 100644 100644 3e2ceb914cf9be46bf235432781840f4145363fd 3e2ceb914cf9be46bf235432781840f4145363fd Gopkg.lock
1 .M N... 100644 100644 100644 cecb683e6e626bcba909ddd36d3357d49f0cfd09 cecb683e6e626bcba909ddd36d3357d49f0cfd09 Gopkg.toml
1 .M N... 100644 100644 100644 aea984b7df090ce3a5826a854f3e5364cd8f2ccd aea984b7df090ce3a5826a854f3e5364cd8f2ccd porcelain.go
1 .D N... 100644 100644 000000 6d9532ba55b84ec4faf214f9cdb9ce70ec8f4f5b 6d9532ba55b84ec4faf214f9cdb9ce70ec8f4f5b porcelain_test.go
2 R. N... 100644 100644 100644 44d0a25072ee3706a8015bef72bdd2c4ab6da76d 44d0a25072ee3706a8015bef72bdd2c4ab6da76d R100 hm.rb     hw.rb
u UU N... 100644 100644 100644 100644 ac51efdc3df4f4fd328d1a02ad05331d8e2c9111 36c06c8752c78d2aff89571132f3bf7841a7b5c3 e85207e04dfdd5eb0a1e9febbc67fd837c44a1cd hw.rb
? _porcelain_test.go
? git.go
? git_test.go
? goreleaser.yml
? vendor/
        "

/-- Number of occurrences of `pat` as a contiguous run inside `s`, counted
as the number of suffixes of `s` that `pat` begins. -/
def countSub (pat s : List Char) : Nat :=
  s.tails.countP fun t => pat.isPrefixOf t

/-- A string of the shape matched by the `minify_dir` regular expression
`\W*\w`: zero or more non-word characters followed by exactly one word
character. -/
def WordPrefixPat (s : List Char) : Prop :=
  ∃ p c, s = p ++ [c] ∧ (∀ x ∈ p, isWordChar x = false) ∧ isWordChar c = true

theorem str_hash : str "#" = ['#'] := rfl

theorem str_u : str "u" = ['u'] := rfl

theorem str_one : str "1" = ['1'] := rfl

theorem str_two : str "2" = ['2'] := rfl

theorem str_quest : str "?" = ['?'] := rfl

theorem byteSlice_zero_one (c : Char) (rest : List Char) (h : c.utf8Size = 1) :
    byteSlice 0 1 (c :: rest) = some [c] := by
  simp [byteSlice, byteSplitAt, h]

theorem processHeader_isSome (r : Repo) (rest2 : List Char) :
    (processHeader r rest2).isSome = headerOk rest2 := by
  unfold processHeader headerOk
  cases splitOnC ' ' rest2 with
  | nil => rfl
  | cons key fields =>
    dsimp only
    by_cases h1 : key = str "branch.head"
    · subst h1
      rw [if_pos rfl, if_neg (by decide), if_neg (by decide)]
      cases fields <;> rfl
    · rw [if_neg h1]
      by_cases h2 : key = str "branch.ab"
      · subst h2
        rw [if_pos rfl, if_pos rfl]
        match fields with
        | [] => rfl
        | [_] => rfl
        | ahead :: behind :: more =>
          dsimp only
          cases parse_usize ahead with
          | none => rfl
          | some a =>
            dsimp only
            cases byteDrop 1 behind with
            | none => rfl
            | some btail =>
              dsimp only
              cases parse_usize btail <;> rfl
      · rw [if_neg h2, if_neg h2]
        by_cases h3 : key = str "stash"
        · subst h3
          rw [if_pos rfl, if_pos rfl]
          match fields with
          | [] => rfl
          | v :: _ =>
            dsimp only
            cases parse_usize v <;> rfl
        · rw [if_neg h3, if_neg h3]
          rfl

theorem processLine_isSome (r : Repo) (line : List Char) :
    (processLine r line).isSome = lineOk line := by
  unfold processLine lineOk
  by_cases h0 : line = []
  · rw [if_pos h0, if_pos h0]
    rfl
  · rw [if_neg h0, if_neg h0]
    cases byteSlice 0 1 line with
    | none => rfl
    | some tag =>
      dsimp only
      by_cases h1 : tag = str "#"
      · rw [if_pos h1, if_pos h1]
        cases byteDrop 2 line with
        | none => rfl
        | some rest2 => dsimp only; exact processHeader_isSome r rest2
      · rw [if_neg h1, if_neg h1]
        by_cases h2 : tag = str "u"
        · rw [if_pos h2, if_neg (by subst h2; decide)]
          rfl
        · rw [if_neg h2]
          by_cases h3 : tag = str "1" ∨ tag = str "2"
          · rw [if_pos h3, if_pos h3]
            cases byteSlice 2 3 line with
            | none => rfl
            | some c1 =>
              dsimp only
              cases byteSlice 3 4 line <;> rfl
          · rw [if_neg h3, if_neg h3]
            by_cases h4 : tag = str "?"
            · rw [if_pos h4]
              rfl
            · rw [if_neg h4]
              rfl

theorem foldlM_processLine_isSome (lines : List (List Char)) :
    ∀ r : Repo, (lines.foldlM processLine r).isSome = lines.all lineOk := by
  induction lines with
  | nil => intro r; rfl
  | cons l ls ih =>
    intro r
    rw [List.foldlM_cons, List.all_cons]
    cases hp : processLine r l with
    | none =>
      have hl : lineOk l = false := by rw [← processLine_isSome r l, hp]; rfl
      rw [hl]
      rfl
    | some r' =>
      have hl : lineOk l = true := by rw [← processLine_isSome r l, hp]; rfl
      rw [hl]
      show (ls.foldlM processLine r').isSome = _
      rw [ih r']
      rfl

theorem processLine_skip (r : Repo) (c : Char) (rest : List Char)
    (hsz : c.utf8Size = 1) (h1 : c ≠ '#') (h2 : c ≠ 'u') (h3 : c ≠ '1')
    (h4 : c ≠ '2') (h5 : c ≠ '?') :
    processLine r (c :: rest) = some r := by
  have hne : ¬((c :: rest : List Char) = []) := by simp
  have t1 : ¬([c] = str "#") := by
    simp only [str_hash, List.cons.injEq, and_true]
    exact h1
  have t2 : ¬([c] = str "u") := by
    simp only [str_u, List.cons.injEq, and_true]
    exact h2
  have t3 : ¬([c] = str "1" ∨ [c] = str "2") := by
    simp only [str_one, str_two, List.cons.injEq, and_true]
    rintro (h | h)
    · exact h3 h
    · exact h4 h
  have t4 : ¬([c] = str "?") := by
    simp only [str_quest, List.cons.injEq, and_true]
    exact h5
  simp only [processLine, byteSlice_zero_one c rest hsz, if_neg hne, if_neg t1,
    if_neg t2, if_neg t3, if_neg t4]

theorem utf8Len_nil : utf8Len [] = 0 := rfl

theorem utf8Len_cons (c : Char) (s : List Char) :
    utf8Len (c :: s) = c.utf8Size + utf8Len s := by
  simp [utf8Len]

theorem byteSplitAt_zero (s : List Char) : byteSplitAt 0 s = some ([], s) := by
  cases s <;> rfl

theorem byteSplitAt_none_of_lt (k : Nat) (s : List Char) (h : utf8Len s < k) :
    byteSplitAt k s = none := by
  induction s generalizing k with
  | nil =>
    match k, h with
    | k + 1, _ => rfl
  | cons c cs ih =>
    rw [utf8Len_cons] at h
    have hpos := Char.utf8Size_pos c
    match k, h with
    | k + 1, h =>
      rw [byteSplitAt]
      by_cases hle : c.utf8Size ≤ k + 1
      · rw [if_pos hle, ih (k + 1 - c.utf8Size) (by omega)]
        rfl
      · rw [if_neg hle]

theorem byteSplitAt_append (a b : List Char) :
    byteSplitAt (utf8Len a) (a ++ b) = some (a, b) := by
  induction a with
  | nil =>
    rw [utf8Len_nil, List.nil_append, byteSplitAt_zero]
  | cons c a ih =>
    have hpos := Char.utf8Size_pos c
    have hk : utf8Len (c :: a) = (c.utf8Size + utf8Len a - 1) + 1 := by
      rw [utf8Len_cons]; omega
    rw [hk, List.cons_append, byteSplitAt,
      if_pos (by omega : c.utf8Size ≤ (c.utf8Size + utf8Len a - 1) + 1)]
    have harg : c.utf8Size + utf8Len a - 1 + 1 - c.utf8Size = utf8Len a := by omega
    rw [harg, ih]
    rfl

theorem splitOnC_ne_nil (sep : Char) (s : List Char) : splitOnC sep s ≠ [] := by
  cases s with
  | nil => simp [splitOnC]
  | cons c cs =>
    rw [splitOnC]
    by_cases h : c = sep
    · rw [if_pos h]; simp
    · rw [if_neg h]
      cases splitOnC sep cs <;> simp

theorem minify_path_one_isSome (s : List Char) : (minify_path s 1).isSome = true := by
  rw [minify_path]
  have h1 : 1 ≤ (splitOnC '/' s).length := by
    cases hs : splitOnC '/' s with
    | nil => exact absurd hs (splitOnC_ne_nil '/' s)
    | cons g gs => simp
  rw [if_pos h1]
  rfl

theorem digit_ne_char (c d : Char) (h : c.isDigit = true) (hd : d.isDigit = false) :
    c ≠ d := by
  intro he
  rw [he, hd] at h
  cases h

theorem splitOnC_of_nosep (sep : Char) (x : List Char) (hx : ∀ c ∈ x, c ≠ sep) :
    splitOnC sep x = [x] := by
  induction x with
  | nil => rfl
  | cons c cs ih =>
    rw [splitOnC, if_neg (hx c (by simp)), ih fun d hd => hx d (by simp [hd])]

theorem splitOnC_append_sep (sep : Char) (x y : List Char) (hx : ∀ c ∈ x, c ≠ sep) :
    splitOnC sep (x ++ sep :: y) = x :: splitOnC sep y := by
  induction x with
  | nil =>
    rw [List.nil_append, splitOnC, if_pos rfl]
  | cons c cs ih =>
    rw [List.cons_append, splitOnC, if_neg (hx c (by simp)),
      ih fun d hd => hx d (by simp [hd])]

theorem stripPlus_plus (A : List Char) : stripPlus ('+' :: A) = A := rfl

theorem stripPlus_of_digits (s : List Char) (h : ∀ c ∈ s, c.isDigit = true) :
    stripPlus s = s := by
  unfold stripPlus
  split
  · next rest =>
    exact absurd (h '+' (by simp)) (by decide)
  · rfl

theorem parse_usize_of_digits (B : List Char) (h0 : B ≠ [])
    (h1 : ∀ c ∈ B, c.isDigit = true) (h2 : digitsVal B < 2 ^ 64) :
    parse_usize B = some (digitsVal B) := by
  unfold parse_usize
  rw [stripPlus_of_digits B h1,
    if_pos ⟨h0, by simpa [List.all_eq_true] using h1, h2⟩]

theorem parse_usize_plus (A : List Char) (h0 : A ≠ [])
    (h1 : ∀ c ∈ A, c.isDigit = true) (h2 : digitsVal A < 2 ^ 64) :
    parse_usize ('+' :: A) = some (digitsVal A) := by
  unfold parse_usize
  rw [stripPlus_plus,
    if_pos ⟨h0, by simpa [List.all_eq_true] using h1, h2⟩]

theorem byteSplitAt_cons_one (k : Nat) (c : Char) (s : List Char) (h : c.utf8Size = 1) :
    byteSplitAt (k + 1) (c :: s) = (byteSplitAt k s).map fun p => (c :: p.1, p.2) := by
  rw [byteSplitAt, h, if_pos (Nat.succ_le_succ (Nat.zero_le k)), Nat.add_sub_cancel]

theorem byteDrop_one_cons (c : Char) (s : List Char) (h : c.utf8Size = 1) :
    byteDrop 1 (c :: s) = some s := by
  rw [byteDrop, byteSplitAt_cons_one 0 c s h, byteSplitAt_zero]
  rfl

theorem byteDrop_two_hash (s : List Char) :
    byteDrop 2 ('#' :: ' ' :: s) = some s := by
  rw [byteDrop, show (2 : Nat) = 1 + 1 from rfl,
    byteSplitAt_cons_one 1 '#' (' ' :: s) (by decide),
    byteSplitAt_cons_one 0 ' ' s (by decide), byteSplitAt_zero]
  rfl

theorem processLine_branch_ab (r : Repo) (A B : List Char) (hA0 : A ≠ [])
    (hA1 : ∀ c ∈ A, c.isDigit = true) (hA2 : digitsVal A < 2 ^ 64)
    (hB0 : B ≠ []) (hB1 : ∀ c ∈ B, c.isDigit = true) (hB2 : digitsVal B < 2 ^ 64) :
    processLine r ('#' :: ' ' :: (str "branch.ab +" ++ A ++ str " -" ++ B)) =
      some { r with ab := some ⟨digitsVal A, digitsVal B⟩ } := by
  have h1 : str "branch.ab +" ++ A ++ str " -" ++ B =
      str "branch.ab" ++ ' ' :: (('+' :: A) ++ ' ' :: ('-' :: B)) := by
    rw [show str "branch.ab +" = str "branch.ab" ++ [' ', '+'] from by decide,
      show str " -" = [' ', '-'] from rfl]
    simp [List.append_assoc]
  have hfields : splitOnC ' ' (str "branch.ab +" ++ A ++ str " -" ++ B) =
      [str "branch.ab", '+' :: A, '-' :: B] := by
    rw [h1, splitOnC_append_sep ' ' (str "branch.ab") _ (by decide),
      splitOnC_append_sep ' ' ('+' :: A) _ ?hplus,
      splitOnC_of_nosep ' ' ('-' :: B) ?hminus]
    case hplus =>
      intro c hc
      rcases List.mem_cons.mp hc with rfl | hc
      · decide
      · exact digit_ne_char c ' ' (hA1 c hc) (by decide)
    case hminus =>
      intro c hc
      rcases List.mem_cons.mp hc with rfl | hc
      · decide
      · exact digit_ne_char c ' ' (hB1 c hc) (by decide)
  have hne : ¬(('#' :: ' ' :: (str "branch.ab +" ++ A ++ str " -" ++ B) : List Char) = []) := by
    simp
  simp only [processLine, byteSlice_zero_one '#' _ (by decide), if_neg hne]
  rw [if_pos (by rw [str_hash]), byteDrop_two_hash]
  try dsimp only
  unfold processHeader
  rw [hfields]
  try dsimp only
  rw [if_neg (by decide : ¬(str "branch.ab" = str "branch.head")), if_pos rfl]
  try dsimp only
  rw [parse_usize_plus A hA0 hA1 hA2]
  try dsimp only
  rw [byteDrop_one_cons '-' B (by decide)]
  try dsimp only
  rw [parse_usize_of_digits B hB0 hB1 hB2]

theorem natDigits_all_digit (n : Nat) : ∀ c ∈ natDigits n, c.isDigit = true := by
  induction n using Nat.strong_induction_on with
  | _ n ih =>
    rw [natDigits]
    split
    · next h =>
      intro c hc
      rw [List.mem_singleton] at hc
      subst hc
      interval_cases n <;> decide
    · next h =>
      intro c hc
      rcases List.mem_append.mp hc with hc | hc
      · exact ih (n / 10) (Nat.div_lt_self (by omega) (by omega)) c hc
      · rw [List.mem_singleton] at hc
        subst hc
        have hm : n % 10 < 10 := Nat.mod_lt n (by omega)
        generalize hgen : n % 10 = m at hm ⊢
        interval_cases m <;> decide

theorem countSub_cons (pat : List Char) (c : Char) (t : List Char) :
    countSub pat (c :: t) =
      countSub pat t + if pat.isPrefixOf (c :: t) then 1 else 0 := by
  rw [countSub, countSub, List.tails_cons, List.countP_cons]

theorem countSub_cons_ne (p0 : Char) (pr : List Char) (c : Char) (hc : c ≠ p0)
    (t : List Char) : countSub (p0 :: pr) (c :: t) = countSub (p0 :: pr) t := by
  rw [countSub_cons,
    show (p0 :: pr).isPrefixOf (c :: t) = ((p0 == c) && pr.isPrefixOf t) from rfl,
    beq_eq_false_iff_ne.mpr (Ne.symm hc), Bool.false_and]
  simp

theorem countSub_escpat_append_digits (pr : List Char) (d t : List Char)
    (hd : ∀ c ∈ d, c.isDigit = true) :
    countSub ('\x1b' :: pr) (d ++ t) = countSub ('\x1b' :: pr) t := by
  induction d with
  | nil => rw [List.nil_append]
  | cons c d ih =>
    rw [List.cons_append,
      countSub_cons_ne '\x1b' pr c (digit_ne_char c '\x1b' (hd c (by simp)) (by decide)) _,
      ih fun x hx => hd x (by simp [hx])]

theorem countSub_reset_esc (d : Char) (hd : d ≠ 'm') (t : List Char) :
    countSub ('\x1b' :: '[' :: 'm' :: []) ('\x1b' :: '[' :: d :: t) =
      countSub ('\x1b' :: '[' :: 'm' :: []) ('[' :: d :: t) := by
  rw [countSub_cons]
  have hf : (('\x1b' :: '[' :: 'm' :: [] : List Char)).isPrefixOf ('\x1b' :: '[' :: d :: t)
      = false := by
    show (('m' == d) && List.isPrefixOf [] t) = false
    rw [beq_eq_false_iff_ne.mpr (Ne.symm hd), Bool.false_and]
  rw [hf]
  simp

theorem dropWhile_head_not {p : Char → Bool} (l : List Char) :
    ∀ (c : Char) (cs : List Char), l.dropWhile p = c :: cs → p c = false := by
  induction l with
  | nil => intro c cs h; cases h
  | cons x xs ih =>
    intro c cs h
    rw [List.dropWhile_cons] at h
    by_cases hx : p x
    · rw [if_pos hx] at h
      exact ih c cs h
    · rw [if_neg hx] at h
      injection h with h1 _
      subst h1
      exact Bool.eq_false_iff.mpr hx

theorem enumFrom_map_ite (f : List Char → List Char) (l : List (List Char)) :
    ∀ n limit : Nat,
      ((List.enumFrom n l).map fun p => if p.1 < limit then f p.2 else p.2) =
        (l.take (limit - n)).map f ++ l.drop (limit - n) := by
  induction l with
  | nil => intro n limit; simp
  | cons x xs ih =>
    intro n limit
    simp only [List.enumFrom_cons, List.map_cons]
    by_cases h : n < limit
    · rw [if_pos h]
      have h1 : limit - n = (limit - (n + 1)) + 1 := by omega
      rw [h1, List.take_succ_cons, List.drop_succ_cons, List.map_cons,
        List.cons_append, ih (n + 1) limit]
    · rw [if_neg h]
      have h0 : limit - n = 0 := by omega
      have h0' : limit - (n + 1) = 0 := by omega
      rw [h0, List.take_zero, List.drop_zero, List.map_nil, List.nil_append,
        ih (n + 1) limit, h0', List.take_zero, List.drop_zero, List.map_nil,
        List.nil_append]

/-- C1 counterexample: the canonical fixture parses with `staged = 1`, not
`staged = 4` as the claim states (the four `1`-records carry `.` in the
first status-code position; only the `2`-record `R.` counts as staged). -/
theorem c1_counterexample :
    ((Repo.from_str c1Fixture).map fun r => r.status.staged) = some 1 ∧
      ((Repo.from_str c1Fixture).map fun r => r.status.staged) ≠ some 4 := by
  decide

/-- C1 amended: parsing the canonical status fixture yields branch
`master`, `ahead_behind = some ⟨1, 10⟩`, `stash_count = 3`, `unmerged = 1`,
`staged = 1`, `unstaged = 4`, `untracked = 5` — exactly the record the
repository's own `test_repo_from_string` expects. -/
theorem c1_amended :
    Repo.from_str c1Fixture = some ⟨str "master", some ⟨1, 10⟩, ⟨1, 1, 4, 5⟩, 3⟩ := by
  decide

/-- C2: at `path = "ab"`, `keep = 2` the `usize` subtraction
`dirs.len() - keep` in `minify_path` underflows (one segment, `1 - 2`), so
the function panics instead of returning the segments verbatim, while the
in-range `keep = 1` call on the same path succeeds. -/
theorem c2_underflow :
    minify_path (str "ab") 2 = none ∧
      minify_path (str "ab") 1 = some (str "\x1b[94mab\x1b[m") := by
  decide

/-- C3 counterexample: a `1`-record shorter than four bytes makes
`Repo::from_str` panic (the `&line[3..4]` slice is out of range), so
parsing is not total over all input strings as the claim states. -/
theorem c3_counterexample : Repo.from_str (str "1 M") = none := by
  decide

/-- C3 amended: `Repo::from_str` succeeds exactly when every line is
well-formed in the sense of `lineOk` (empty, or a one-byte leading tag
whose required slices and integer fields all succeed); a line whose
one-byte leading tag is none of `#`, `u`, `1`, `2`, `?` is silently
skipped, leaving the accumulated summary unchanged; but malformed
`branch.ab`/`stash` integers, `#` lines shorter than two bytes, `1`/`2`
records shorter than four bytes, and multi-byte first characters panic
instead of being skipped. -/
theorem c3_amended :
    (∀ input : List Char,
        (Repo.from_str input).isSome = (splitOnC '\n' input).all lineOk) ∧
      ∀ (r : Repo) (c : Char) (rest : List Char),
        c.utf8Size = 1 → c ≠ '#' → c ≠ 'u' → c ≠ '1' → c ≠ '2' → c ≠ '?' →
          processLine r (c :: rest) = some r := by
  constructor
  · intro input
    exact foldlM_processLine_isSome (splitOnC '\n' input) _
  · intro r c rest hsz h1 h2 h3 h4 h5
    exact processLine_skip r c rest hsz h1 h2 h3 h4 h5

/-- C3 witness: the skip branch of the amended claim applied at the
concrete unknown-tag line `"x"` and the all-empty summary. -/
theorem c3_witness :
    processLine ⟨[], none, ⟨0, 0, 0, 0⟩, 0⟩ ['x'] = some ⟨[], none, ⟨0, 0, 0, 0⟩, 0⟩ :=
  c3_amended.2 ⟨[], none, ⟨0, 0, 0, 0⟩, 0⟩ 'x' [] (by decide) (by decide)
    (by decide) (by decide) (by decide) (by decide)

/-- C5 counterexample: when the working-directory query itself fails
(`env::current_dir()` returns `Err`, the `cwd = none` case), `statusline`
panics on the `.unwrap()` instead of returning the empty string. -/
theorem c5_counterexample : ¬ statusline none [] [] = some [] := by
  decide

/-- C6: for every pair of decimal numerals `A`, `B` (nonempty digit
strings with `usize`-representable values), parsing a report consisting of
the header line `# branch.ab +A -B` yields
`ahead_behind = some ⟨A, B⟩`: the `+`-signed field is accepted by the
unsigned integer parser and the `-` sign is removed by the `behind[1..]`
slice before parsing. -/
theorem c6_branch_ab_signs (A B : List Char) (hA0 : A ≠ [])
    (hA1 : ∀ c ∈ A, c.isDigit = true) (hA2 : digitsVal A < 2 ^ 64)
    (hB0 : B ≠ []) (hB1 : ∀ c ∈ B, c.isDigit = true) (hB2 : digitsVal B < 2 ^ 64) :
    ∃ r, Repo.from_str (str "# branch.ab +" ++ A ++ str " -" ++ B) = some r ∧
      r.ab = some ⟨digitsVal A, digitsVal B⟩ := by
  refine ⟨⟨[], some ⟨digitsVal A, digitsVal B⟩, ⟨0, 0, 0, 0⟩, 0⟩, ?_, rfl⟩
  have hform : str "# branch.ab +" ++ A ++ str " -" ++ B =
      '#' :: ' ' :: (str "branch.ab +" ++ A ++ str " -" ++ B) := rfl
  rw [hform]
  unfold Repo.from_str
  have hnl : ∀ c ∈ '#' :: ' ' :: (str "branch.ab +" ++ A ++ str " -" ++ B), c ≠ '\n' := by
    intro c hc
    rcases List.mem_cons.mp hc with rfl | hc
    · decide
    rcases List.mem_cons.mp hc with rfl | hc
    · decide
    rcases List.mem_append.mp hc with hc1 | hcB
    · rcases List.mem_append.mp hc1 with hc2 | hcs
      · rcases List.mem_append.mp hc2 with hch | hcA
        · exact (by decide : ∀ x ∈ str "branch.ab +", x ≠ '\n') c hch
        · exact digit_ne_char c '\n' (hA1 c hcA) (by decide)
      · exact (by decide : ∀ x ∈ str " -", x ≠ '\n') c hcs
    · exact digit_ne_char c '\n' (hB1 c hcB) (by decide)
  rw [splitOnC_of_nosep '\n' _ hnl, List.foldlM_cons,
    processLine_branch_ab _ A B hA0 hA1 hA2 hB0 hB1 hB2]
  rfl

/-- C6 witness: the claim at the concrete header line `# branch.ab +1 -10`,
which parses to `ahead = 1`, `behind = 10`. -/
theorem c6_witness :
    ∃ r, Repo.from_str (str "# branch.ab +1 -10") = some r ∧
      r.ab = some ⟨1, 10⟩ := by
  have h := c6_branch_ab_signs (str "1") (str "10") (by decide) (by decide)
    (by decide) (by decide) (by decide) (by decide)
  rw [show str "# branch.ab +" ++ str "1" ++ str " -" ++ str "10" =
    str "# branch.ab +1 -10" from by decide] at h
  exact h

/-- C5 amended: `statusline` returns the empty string only when the
working directory is retrieved but is not valid UTF-8 (`to_str()` is
`None`); when `env::current_dir()` itself fails, the `.unwrap()` panics
rather than degrading to an empty string. -/
theorem c5_amended :
    (∀ root stat, statusline (some none) root stat = some []) ∧
      (∀ root stat, statusline none root stat = none) :=
  ⟨fun _ _ => rfl, fun _ _ => rfl⟩

/-- C4 counterexample: with `root = "/xyz"`, which is not a prefix of
`path = "/abcd"` at all (let alone aligned to a separator), `apply_vcs`
does not fail: it silently slices by length and returns a garbled prompt
string. -/
theorem c4_counterexample :
    apply_vcs (str "/abcd") (str "/xyz") (str "S") =
        some (str "\x1b[94m/abc\x1b[mS\x1b[94md\x1b[m") ∧
      (str "/xyz").isPrefixOf (str "/abcd") = false ∧
      utf8Len (str "/xyz") ≤ utf8Len (str "/abcd") := by
  decide

/-- C4 amended: `apply_vcs` panics when `root` is longer (in bytes) than
`current_path` (and, more generally, whenever `root.len()` is not a
character boundary of the path); but it performs no prefix or
separator-alignment check: whenever the path splits as `a ++ b` with
`root` of the same byte length as `a`, the call succeeds — even when
`root ≠ a`, producing a garbled prompt. -/
theorem c4_amended :
    (∀ path root stat : List Char, utf8Len path < utf8Len root →
        apply_vcs path root stat = none) ∧
      ∀ a b root stat : List Char, utf8Len root = utf8Len a →
        (apply_vcs (a ++ b) root stat).isSome = true := by
  constructor
  · intro path root stat h
    unfold apply_vcs
    rw [byteSplitAt_none_of_lt (utf8Len root) path h]
  · intro a b root stat h
    unfold apply_vcs
    rw [h, byteSplitAt_append]
    dsimp only
    cases hma : minify_path a 1 with
    | none =>
      have hsome := minify_path_one_isSome a
      rw [hma] at hsome
      exact absurd hsome (by simp)
    | some x =>
      cases hmb : minify_path b 1 with
      | none =>
        have hsome := minify_path_one_isSome b
        rw [hmb] at hsome
        exact absurd hsome (by simp)
      | some y => rfl

/-- C4 witness: the amended claim at concrete inputs — a root longer than
the path panics, and a non-prefix root of matching byte length succeeds. -/
theorem c4_witness :
    apply_vcs (str "ab") (str "abc") (str "S") = none ∧
      (apply_vcs (str "/ab" ++ str "cd") (str "/xy") (str "S")).isSome = true :=
  ⟨c4_amended.1 (str "ab") (str "abc") (str "S") (by decide),
    c4_amended.2 (str "/ab") (str "cd") (str "/xy") (str "S") (by decide)⟩

/-- C7: for positive `ahead` and `behind`, the `AheadBehind` rendering is
the green up-arrow followed immediately by the ahead count, then the red
down-arrow followed immediately by the behind count, with exactly one
occurrence of the reset code, at the very end; and the all-zero
`AheadBehind` renders as the empty string. -/
theorem c7_ahead_behind_render (a b : Nat) (ha : 0 < a) (hb : 0 < b) :
    (AheadBehind.fmt ⟨a, b⟩ =
        str "\x1b[32m↑" ++ natDigits a ++ str "\x1b[31m↓" ++ natDigits b ++ str "\x1b[m" ∧
      countSub (str "\x1b[m") (AheadBehind.fmt ⟨a, b⟩) = 1) ∧
      AheadBehind.fmt ⟨0, 0⟩ = [] := by
  have heq : AheadBehind.fmt ⟨a, b⟩ =
      str "\x1b[32m↑" ++ natDigits a ++ str "\x1b[31m↓" ++ natDigits b ++ str "\x1b[m" := by
    rw [AheadBehind.fmt,
      if_neg (show ¬¬((⟨a, b⟩ : AheadBehind).ahead > 0 ∨ (⟨a, b⟩ : AheadBehind).behind > 0)
        from fun h => h (Or.inl ha)),
      if_pos ha, if_pos hb]
    simp [List.append_assoc]
  refine ⟨⟨heq, ?_⟩, by decide⟩
  rw [heq]
  have hA := natDigits_all_digit a
  have hB := natDigits_all_digit b
  rw [show str "\x1b[32m↑" = '\x1b' :: '[' :: '3' :: '2' :: 'm' :: '↑' :: [] from rfl,
    show str "\x1b[31m↓" = '\x1b' :: '[' :: '3' :: '1' :: 'm' :: '↓' :: [] from rfl,
    show str "\x1b[m" = '\x1b' :: '[' :: 'm' :: [] from rfl]
  simp only [List.cons_append, List.nil_append, List.append_assoc]
  rw [countSub_reset_esc '3' (by decide),
    countSub_cons_ne '\x1b' _ '[' (by decide) _,
    countSub_cons_ne '\x1b' _ '3' (by decide) _,
    countSub_cons_ne '\x1b' _ '2' (by decide) _,
    countSub_cons_ne '\x1b' _ 'm' (by decide) _,
    countSub_cons_ne '\x1b' _ '↑' (by decide) _,
    countSub_escpat_append_digits _ _ _ hA,
    countSub_reset_esc '3' (by decide),
    countSub_cons_ne '\x1b' _ '[' (by decide) _,
    countSub_cons_ne '\x1b' _ '3' (by decide) _,
    countSub_cons_ne '\x1b' _ '1' (by decide) _,
    countSub_cons_ne '\x1b' _ 'm' (by decide) _,
    countSub_cons_ne '\x1b' _ '↓' (by decide) _,
    countSub_escpat_append_digits _ _ _ hB]
  decide

/-- C7 witness: the rendering claim at `ahead = 1`, `behind = 10`, the
repository's own test case. -/
theorem c7_witness :
    (AheadBehind.fmt ⟨1, 10⟩ =
        str "\x1b[32m↑" ++ natDigits 1 ++ str "\x1b[31m↓" ++ natDigits 10 ++ str "\x1b[m" ∧
      countSub (str "\x1b[m") (AheadBehind.fmt ⟨1, 10⟩) = 1) ∧
      AheadBehind.fmt ⟨0, 0⟩ = [] :=
  c7_ahead_behind_render 1 10 (by decide) (by decide)

/-- C9: `has_changes` holds exactly when the four counts have positive sum,
for all values of the counts; the rendering of an all-zero status is the
empty string; and `Repo::stat` on an all-zero status never emits the
parenthesised status block — the output is just the icon, branch,
ahead/behind fragment and stash fragment. -/
theorem c9_has_changes_and_zero_render :
    (∀ u s g t : Nat, (Status.has_changes ⟨u, s, g, t⟩) = true ↔ 0 < u + s + g + t) ∧
      Status.fmt ⟨0, 0, 0, 0⟩ = [] ∧
      ∀ (branch : List Char) (ab : Option AheadBehind) (stashes : Nat),
        Repo.stat ⟨branch, ab, ⟨0, 0, 0, 0⟩, stashes⟩ =
          ICON ++ branch ++
            (match ab with
             | some ab => ab.fmt
             | none => str "\x1b[91;1m↯\x1b[m") ++
            (if stashes > 0 then str "\x7b" ++ natDigits stashes ++ str "\x7d" else []) := by
  refine ⟨?_, by decide, ?_⟩
  · intro u s g t
    simp only [Status.has_changes, Bool.or_eq_true, decide_eq_true_eq]
    omega
  · intro branch ab stashes
    have hz : Status.has_changes ⟨0, 0, 0, 0⟩ = false := by decide
    simp [Repo.stat, hz]

/-- C8: `minify_dir` returns, for every segment, the shortest prefix
consisting of zero or more non-word characters followed by exactly one word
character, or the segment unchanged when the segment contains no word
character (so no prefix matches); including the four literal examples of
the claim. -/
theorem c8_minify_dir_rule :
    (∀ name : List Char,
        (minify_dir name <+: name ∧ WordPrefixPat (minify_dir name) ∧
          ∀ q : List Char, q <+: name → WordPrefixPat q →
            (minify_dir name).length ≤ q.length) ∨
        ((∀ q : List Char, q <+: name → ¬ WordPrefixPat q) ∧ minify_dir name = name)) ∧
      minify_dir (str "private_dot_config") = str "p" ∧
      minify_dir (str "._shares") = str "._" ∧
      minify_dir (str "~root") = str "~r" ∧
      minify_dir (str "~") = str "~" := by
  refine ⟨?_, by decide, by decide, by decide, by decide⟩
  intro name
  cases hd : name.dropWhile (fun c => !isWordChar c) with
  | nil =>
    right
    have hall : ∀ c ∈ name, isWordChar c = false := by
      intro c hc
      have := List.dropWhile_eq_nil_iff.mp hd c hc
      simpa using this
    constructor
    · rintro q hq ⟨p, c, rfl, hp, hc⟩
      have hcmem : c ∈ name := hq.subset (by simp)
      rw [hall c hcmem] at hc
      cases hc
    · rw [minify_dir, hd]
  | cons c rest =>
    left
    have hsplit : name.takeWhile (fun c => !isWordChar c) ++ c :: rest = name := by
      rw [← hd, List.takeWhile_append_dropWhile]
    have hmd : minify_dir name = name.takeWhile (fun c => !isWordChar c) ++ [c] := by
      rw [minify_dir, hd]
    have hcw : isWordChar c = true := by
      have := dropWhile_head_not name c rest hd
      simpa using this
    have htw : ∀ x ∈ name.takeWhile (fun c => !isWordChar c), isWordChar x = false := by
      intro x hx
      have := List.mem_takeWhile_imp hx
      simpa using this
    refine ⟨?_, ?_, ?_⟩
    · rw [hmd]
      exact ⟨rest, by rw [List.append_assoc]; exact hsplit⟩
    · rw [hmd]
      exact ⟨_, c, rfl, htw, hcw⟩
    · rintro q hq ⟨p, c', rfl, hp', hc'⟩
      by_contra hlen
      push_neg at hlen
      rw [hmd] at hlen
      have hqtake : (p ++ [c']) <+: name.takeWhile (fun c => !isWordChar c) := by
        apply List.prefix_of_prefix_length_le hq ⟨c :: rest, hsplit⟩
        simp only [List.length_append, List.length_singleton] at hlen ⊢
        omega
      have hmem : c' ∈ name.takeWhile (fun c => !isWordChar c) :=
        hqtake.subset (by simp)
      rw [htw c' hmem] at hc'
      cases hc'

/-- C10: for every path and every in-range `keep`, `minify_path` returns
the `/`-rejoined segments (the first `N - keep` abbreviated by
`minify_dir`, the last `keep` verbatim) wrapped in the fixed path color
escape `\x1b[94m` and the trailing reset `\x1b[m` — the path text is never
returned uncolored. -/
theorem c10_minify_path_colored (path : List Char) (keep : Nat)
    (h : keep ≤ (splitOnC '/' path).length) :
    minify_path path keep = some (str "\x1b[94m" ++
      List.intercalate (str "/")
        (((splitOnC '/' path).take ((splitOnC '/' path).length - keep)).map minify_dir ++
          (splitOnC '/' path).drop ((splitOnC '/' path).length - keep)) ++
      str "\x1b[m") := by
  simp only [minify_path]
  rw [if_pos h,
    show (splitOnC '/' path).enum = (splitOnC '/' path).enumFrom 0 from rfl,
    enumFrom_map_ite minify_dir (splitOnC '/' path) 0 ((splitOnC '/' path).length - keep),
    Nat.sub_zero]

/-- C10 witness: the colored-wrap claim evaluated at the repository's own
test case `minify_path "/etc/X11/xorg.conf.d" 1`. -/
theorem c10_witness :
    minify_path (str "/etc/X11/xorg.conf.d") 1 =
      some (str "\x1b[94m/e/X/xorg.conf.d\x1b[m") := by
  rw [c10_minify_path_colored (str "/etc/X11/xorg.conf.d") 1 (by decide)]
  decide

end RustStatusline
